import Mathlib

/-!
Verification of the srt-fixer subtitle overlap resolver (src/index.ts).

The TypeScript source is shallowly embedded below: strings are `String`
(lists of characters), JS numbers appearing here are all exact small
naturals (millisecond timestamps), regular-expression matching is
replaced by explicit character-level matchers with the same semantics,
and `Array.prototype.sort` (guaranteed stable by the ECMAScript
specification) is modelled by a stable insertion sort.
-/

namespace SrtFixer

/-- Whitespace as matched by the JavaScript `trim` / `\s` class
(ASCII part; the inputs at play are ASCII). -/
def isWsChar (c : Char) : Bool :=
  c = ' ' || c = '\t' || c = '\n' || c = '\r' || c = '\x0b' || c = '\x0c'

def isDigitChar (c : Char) : Bool :=
  '0' ≤ c && c ≤ '9'

def digitVal (c : Char) : Nat :=
  c.toNat - '0'.toNat

/-- `Number("…digits…")` on a nonempty digit string. -/
def natOfDigits (cs : List Char) : Nat :=
  cs.foldl (fun acc c => acc * 10 + digitVal c) 0

/-- `String.prototype.trim`. -/
def trimChars (cs : List Char) : List Char :=
  ((cs.dropWhile isWsChar).reverse.dropWhile isWsChar).reverse

/-- `content.replace(/\r\n/g, "\n")`. -/
def normalizeNewlines : List Char → List Char
  | '\r' :: '\n' :: rest => '\n' :: normalizeNewlines rest
  | c :: rest => c :: normalizeNewlines rest
  | [] => []

/-- `s.split("\n")`. -/
def splitOnNl : List Char → List (List Char)
  | [] => [[]]
  | '\n' :: rest => [] :: splitOnNl rest
  | c :: rest =>
    match splitOnNl rest with
    | [] => [[c]]
    | h :: t => (c :: h) :: t

/-- Worker for `s.split(/\n{2,}/)`: the flag records that we are inside a
separator run of newlines (the separator being maximal because the
regex match is greedy): with the flag set, further newlines are absorbed
into the separator just consumed. -/
def splitNlAux : Bool → List Char → List (List Char)
  | _, [] => [[]]
  | true, c :: rest =>
    if c = '\n' then splitNlAux true rest
    else
      match splitNlAux false rest with
      | [] => [[c]]
      | h :: t => (c :: h) :: t
  | false, c :: rest =>
    if c = '\n' && rest.head? == some '\n' then [] :: splitNlAux true rest
    else
      match splitNlAux false rest with
      | [] => [[c]]
      | h :: t => (c :: h) :: t

/-- `normalized.split(/\n{2,}/)`: split on maximal runs of two or more
newline characters. -/
def splitNlRuns (cs : List Char) : List (List Char) :=
  splitNlAux false cs

/-- Does the list start with the characters `-->`? -/
def startsWithArrow : List Char → Bool
  | '-' :: '-' :: '>' :: _ => true
  | _ => false

/-- `line.includes("-->")`. -/
def containsArrow : List Char → Bool
  | [] => false
  | c :: rest => startsWithArrow (c :: rest) || containsArrow rest

/-- `line.split` on occurrences of the literal `-->` (the `/\s*-->\s*/`
separator of the source: the surrounding `\s*` only moves whitespace out
of the parts, and every part is trimmed before use, so the part count and
the trimmed parts agree with this literal split). -/
def splitOnArrow : List Char → List (List Char)
  | '-' :: '-' :: '>' :: rest => [] :: splitOnArrow rest
  | c :: rest =>
    match splitOnArrow rest with
    | [] => [[c]]
    | h :: t => (c :: h) :: t
  | [] => [[]]

/-- Match of `/^\{(\\an[1-9])\}/`: returns the captured tag (as a string
`\anD`) together with the remaining characters. -/
def leadingTag : List Char → Option (String × List Char)
  | '{' :: '\\' :: 'a' :: 'n' :: d :: '}' :: rest =>
    if '1' ≤ d && d ≤ '9' then some (String.mk ['\\', 'a', 'n', d], rest) else none
  | _ => none

/-- `extractLeadingTag` of the source: `text.match(/^\{(\\an[1-9])\}/)`,
returning the captured group. -/
def extractLeadingTag (text : String) : Option String :=
  (leadingTag text.data).map Prod.fst

/-- `text.replace(/^\{\\an[1-9]\}/, "")`: strip one leading tag marker. -/
def stripLeadingTag (text : String) : String :=
  match leadingTag text.data with
  | some (_, rest) => String.mk rest
  | none => text

/-- Worker for `stripAllTags`: `text.replace(/\{\\an[1-9]\}/g, "")`. -/
def stripAllTagsCore : List Char → List Char
  | [] => []
  | '{' :: '\\' :: 'a' :: 'n' :: d :: '}' :: rest =>
    if '1' ≤ d && d ≤ '9' then stripAllTagsCore rest
    else '{' :: stripAllTagsCore ('\\' :: 'a' :: 'n' :: d :: '}' :: rest)
  | c :: rest => c :: stripAllTagsCore rest
termination_by cs => cs.length
decreasing_by all_goals simp_arith

/-- `stripAllTags` of the source. -/
def stripAllTags (text : String) : String :=
  String.mk (stripAllTagsCore text.data)

/-- The `SubtitleBlock` record of the source.  Optional JS fields are
`Option`s; the optional boolean `keepExisting` starts out absent, i.e.
falsy, and is modelled as a `Bool`. -/
structure SubtitleBlock where
  originalOrder : Nat := 0
  index : Option Nat := none
  startMs : Nat
  endMs : Nat
  timingLine : String := ""
  lines : List String
  assignedTag : Option String := none
  existingTag : Option String := none
  keepExisting : Bool := false
deriving Repr, DecidableEq

/-- The `ParseResult` record of the source. -/
structure ParseResult where
  blocks : List SubtitleBlock
  skippedBlocks : Nat
deriving Repr, DecidableEq

/-- `POSITION_TAGS` of the source. -/
def POSITION_TAGS : List String := ["\\an2", "\\an8", "\\an5", "\\an4", "\\an6"]

/-- `DEFAULT_TAG` of the source. -/
def DEFAULT_TAG : String := "\\an2"

/-- `parseTimestampToMs`, pattern `/^(\d{2}):(\d{2}):(\d{2}),(\d{3})$/`
(the `Number.isNaN` guards of the source can never fire on digit
captures). -/
def parseTimestampToMsCore : List Char → Option Nat
  | [h1, h2, ':', m1, m2, ':', s1, s2, ',', x1, x2, x3] =>
    if isDigitChar h1 && isDigitChar h2 && isDigitChar m1 && isDigitChar m2 &&
        isDigitChar s1 && isDigitChar s2 && isDigitChar x1 && isDigitChar x2 &&
        isDigitChar x3 then
      some ((((digitVal h1 * 10 + digitVal h2) * 60 + (digitVal m1 * 10 + digitVal m2)) * 60 +
          (digitVal s1 * 10 + digitVal s2)) * 1000 +
        (digitVal x1 * 100 + digitVal x2 * 10 + digitVal x3))
    else none
  | _ => none

/-- `parseTimestampToMs` of the source, on `String`. -/
def parseTimestampToMs (ts : String) : Option Nat :=
  parseTimestampToMsCore ts.data

/-- `parseTimingLine` of the source: split the line on `-->`, require
exactly two parts, parse both trimmed timestamps, and rebuild the
canonical timing line. -/
def parseTimingLine (line : List Char) : Option (Nat × Nat × List Char) :=
  match splitOnArrow line with
  | [p1, p2] =>
    let a := trimChars p1
    let b := trimChars p2
    match parseTimestampToMsCore a, parseTimestampToMsCore b with
    | some startMs, some endMs => some (startMs, endMs, a ++ (' ' :: '-' :: '-' :: '>' :: ' ' :: b))
    | _, _ => none
  | _ => none

/-- `parseAssTimestampToMs`, pattern `/^(\d+):(\d{2}):(\d{2})\.(\d{1,2})$/`:
variable-width hours, then a 1- or 2-digit centisecond field; a single
digit is multiplied by 100, two digits by 10. -/
def parseAssTimestampToMsCore (cs : List Char) : Option Nat :=
  let hrs := cs.takeWhile isDigitChar
  if hrs.isEmpty then none else
  match cs.dropWhile isDigitChar with
  | ':' :: m1 :: m2 :: ':' :: s1 :: s2 :: '.' :: frac =>
    if isDigitChar m1 && isDigitChar m2 && isDigitChar s1 && isDigitChar s2 then
      let base := ((natOfDigits hrs * 60 + (digitVal m1 * 10 + digitVal m2)) * 60 +
        (digitVal s1 * 10 + digitVal s2)) * 1000
      match frac with
      | [c1] => if isDigitChar c1 then some (base + digitVal c1 * 100) else none
      | [c1, c2] =>
        if isDigitChar c1 && isDigitChar c2 then
          some (base + (digitVal c1 * 10 + digitVal c2) * 10)
        else none
      | _ => none
    else none
  | _ => none

/-- `parseAssTimestampToMs` of the source, on `String`. -/
def parseAssTimestampToMs (ts : String) : Option Nat :=
  parseAssTimestampToMsCore ts.data

/-- One iteration of the `rawBlocks.forEach` body of `parseSrt`:
`none` means the raw block is skipped (`skippedBlocks += 1`). -/
def parseSrtBlock (originalOrder : Nat) (raw : List Char) : Option SubtitleBlock :=
  let t := trimChars raw
  if t.isEmpty then none else
  let lines := splitOnNl t
  if lines.isEmpty then none else
  match lines.findIdx? (fun l => containsArrow l) with
  | none => none
  | some ti =>
    match parseTimingLine (trimChars (lines.getD ti [])) with
    | none => none
    | some (startMs, endMs, timingLine) =>
      let possibleIndex := if 0 < ti then trimChars (lines.getD (ti - 1) []) else []
      let index := if !possibleIndex.isEmpty && possibleIndex.all isDigitChar then
        some (natOfDigits possibleIndex) else none
      let textLines := lines.drop (ti + 1)
      if textLines.isEmpty || textLines.all (fun l => (trimChars l).isEmpty) then none
      else some {
        originalOrder := originalOrder,
        index := index,
        startMs := startMs,
        endMs := endMs,
        timingLine := String.mk timingLine,
        lines := textLines.map String.mk }

/-- `parseSrt` of the source. -/
def parseSrt (content : String) : ParseResult :=
  let rawBlocks := splitNlRuns (normalizeNewlines content.data)
  let parsed := rawBlocks.enum.map (fun p => parseSrtBlock p.1 p.2)
  { blocks := parsed.filterMap id,
    skippedBlocks := (parsed.filter (fun o => o.isNone)).length }

/-- ASCII lowercasing, as `String.prototype.toLowerCase` behaves on the
`#` and hex characters produced here. -/
def toLowerAscii (s : String) : String :=
  String.mk (s.data.map Char.toLower)

def isHexDigitChar (c : Char) : Bool :=
  ('0' ≤ c && c ≤ '9') || ('a' ≤ c && c ≤ 'f') || ('A' ≤ c && c ≤ 'F')

/-- `color.trim().replace(/^&?H/i, "").replace(/&$/, "")` of
`assColorToHex`: trim, strip one optional leading `&` followed by `H` or
`h`, strip one trailing `&`. -/
def normalizeAssColor (color : String) : List Char :=
  let t := trimChars color.data
  let afterPrefix :=
    match t with
    | '&' :: c :: rest => if c = 'H' || c = 'h' then rest else t
    | c :: rest => if c = 'H' || c = 'h' then rest else t
    | [] => []
  match afterPrefix.getLast? with
  | some '&' => afterPrefix.dropLast
  | _ => afterPrefix

/-- `normalized.padStart(6, "0")`. -/
def padStart6 (cs : List Char) : List Char :=
  List.replicate (6 - cs.length) '0' ++ cs

/-- The three two-character groups `bb`, `gg`, `rr` taken by
`hex.slice(-6, -4)`, `hex.slice(-4, -2)`, `hex.slice(-2)`. -/
def lastSix (cs : List Char) : List Char :=
  cs.drop (cs.length - 6)

/-- `assColorToHex` of the source (on a present color string; the
`undefined`/empty-input guards return `none`). -/
def assColorToHex (color : Option String) : Option String :=
  match color with
  | none => none
  | some color =>
    let normalized := normalizeAssColor color
    if normalized.isEmpty then none else
    let hex := padStart6 normalized
    let six := lastSix hex
    let bb := six.take 2
    let gg := (six.drop 2).take 2
    let rr := six.drop 4
    if rr.all isHexDigitChar && gg.all isHexDigitChar && bb.all isHexDigitChar then
      some (toLowerAscii (String.mk ('#' :: (rr ++ gg ++ bb))))
    else none

/-- The color-resolution fragment of `parseAss` (src/index.ts lines
356-360): an inline override wins over the style default, and a pure
white color is dropped only when it came from the style default and
`omitWhiteColor` is set. -/
def resolveDialogueColor (overrideColor : Option String)
    (stylePrimaryColour : Option String) (omitWhiteColor : Bool) : Option String :=
  let colorFromOverride := overrideColor.isSome
  let color := overrideColor.orElse (fun _ => assColorToHex stylePrimaryColour)
  if !colorFromOverride && omitWhiteColor &&
      (color.map toLowerAscii) = some "#ffffff" then
    none
  else color

/-- The `AssignOptions` record of the source. -/
structure AssignOptions where
  clean : Bool
  ignoreExisting : Bool
  omitDefault : Bool
deriving Repr, DecidableEq

/-- Stable insertion used to model `Array.prototype.sort` (which the
ECMAScript specification requires to be stable): the element is placed
before the first entry that is not strictly smaller, so equal-comparing
entries keep their original relative order. -/
def stableInsert (lt : α → α → Bool) (x : α) : List α → List α
  | [] => [x]
  | y :: rest => if lt y x then y :: stableInsert lt x rest else x :: y :: rest

/-- Stable sort modelling `[...blocks].sort(cmp)`. -/
def stableSort (lt : α → α → Bool) : List α → List α
  | [] => []
  | x :: rest => stableInsert lt x (stableSort lt rest)

/-- The comparator of `assignSlots`: `startMs` ascending, then `endMs`
ascending (strict version; ties are resolved by stability). -/
def blockLT (a b : SubtitleBlock) : Bool :=
  a.startMs < b.startMs || (a.startMs == b.startMs && a.endMs < b.endMs)

/-- The eviction loop of `assignSlots`: remove every active entry whose
end time is at or before the incoming block's start. -/
def evictActive (startMs : Nat) (active : List (Nat × String)) : List (Nat × String) :=
  active.filter (fun e => startMs < e.1)

/-- The palette scan of `assignSlots`: first `POSITION_TAGS` entry not in
use, else the last palette entry. -/
def chooseTag (used : List String) : String :=
  match POSITION_TAGS.find? (fun t => !(used.contains t)) with
  | some t => t
  | none => POSITION_TAGS.getLastD ""

/-- The body of the sweep loop of `assignSlots` for one block: returns
the updated block and the updated active list. -/
def processBlock (opts : AssignOptions) (b : SubtitleBlock)
    (active : List (Nat × String)) : SubtitleBlock × List (Nat × String) :=
  let active1 := evictActive b.startMs active
  let existingTag := extractLeadingTag (b.lines.headD "")
  let b1 : SubtitleBlock :=
    { b with
      existingTag := existingTag,
      lines := if opts.clean then b.lines.map stripAllTags else b.lines }
  match existingTag with
  | some t =>
    if !opts.clean && opts.ignoreExisting then
      ({ b1 with assignedTag := some t, keepExisting := true },
        active1 ++ [(b.endMs, t)])
    else
      let tag := chooseTag (active1.map Prod.snd)
      ({ b1 with assignedTag := some tag }, active1 ++ [(b.endMs, tag)])
  | none =>
    let tag := chooseTag (active1.map Prod.snd)
    ({ b1 with assignedTag := some tag }, active1 ++ [(b.endMs, tag)])

/-- The sweep loop of `assignSlots` over the sorted working list.  The
source mutates the shared block objects; here every block is paired with
its index in the original array so that the mutations can be written
back. -/
def sweep (opts : AssignOptions) :
    List (Nat × SubtitleBlock) → List (Nat × String) → List (Nat × SubtitleBlock)
  | [], _ => []
  | (i, b) :: rest, active =>
    let r := processBlock opts b active
    (i, r.1) :: sweep opts rest r.2

/-- Recover the mutated block for original index `i`. -/
def lookupIdx (i : Nat) : List (Nat × SubtitleBlock) → Option SubtitleBlock
  | [] => none
  | (j, b) :: rest => if j = i then some b else lookupIdx i rest

/-- The second loop of `assignSlots` (tag rewriting on the first text
line, in original order). -/
def applyTag (omitDefault : Bool) (b : SubtitleBlock) : SubtitleBlock :=
  let tag := b.assignedTag.getD DEFAULT_TAG
  if b.keepExisting then b
  else
    match b.lines with
    | [] => b
    | firstLine :: rest =>
      if omitDefault && tag == DEFAULT_TAG then
        { b with lines := stripLeadingTag firstLine :: rest }
      else if (match firstLine.data with | '{' :: _ => true | _ => false) then
        { b with lines := ("\x7b" ++ tag ++ "\x7d" ++ stripLeadingTag firstLine) :: rest }
      else
        { b with lines := ("\x7b" ++ tag ++ "\x7d" ++ firstLine) :: rest }

/-- `assignSlots` of the source.  The JS function mutates the blocks of
the input array in place; this model returns the array contents after
the call, in the original order. -/
def assignSlots (blocks : List SubtitleBlock) (opts : AssignOptions) : List SubtitleBlock :=
  let working := stableSort (fun p q => blockLT p.2 q.2) blocks.enum
  let assigned := sweep opts working []
  blocks.enum.map (fun p => applyTag opts.omitDefault ((lookupIdx p.1 assigned).getD p.2))

/-- The comparator of `serializeSrt`: `startMs`, then `endMs`, then
`originalOrder` (strict version; ties resolved by stability). -/
def serLT (a b : SubtitleBlock) : Bool :=
  a.startMs < b.startMs ||
    (a.startMs == b.startMs &&
      (a.endMs < b.endMs || (a.endMs == b.endMs && a.originalOrder < b.originalOrder)))

/-- `serializeSrt` of the source. -/
def serializeSrt (blocks : List SubtitleBlock) : String :=
  let ordered := stableSort serLT blocks
  String.intercalate "\n\n" (ordered.enum.map (fun p =>
    String.intercalate "\n"
      (Nat.repr (p.2.index.getD (p.1 + 1)) :: p.2.timingLine :: p.2.lines)))

/-- Outcome of the per-file loop of `main` (src/index.ts lines 578-631):
`exitedEarly` models a `process.exit` fired inside the loop, which kills
the whole process at once; `finished` models falling out of the loop,
with the exit status derived from the collected failure count. -/
inductive BatchOutcome where
  | exitedEarly (code : Nat) (filesAttempted : Nat) : BatchOutcome
  | finished (failures : Nat) (exitCode : Nat) : BatchOutcome
deriving Repr, DecidableEq

/-- The per-file loop of `main`.  Each list entry is the result of
reading and parsing one input file: `none` when the read threw (caught
by the `try`/`catch`, counted as a failure), `some pr` the parser's
output for the file's text.  Mirrors the control flow of the source: a
caught error increments `failures` and continues; a file with zero
parsed blocks hits `process.exit(1)` immediately; after the loop the
process exits 1 exactly when `failures > 0`. -/
def runBatchGo (opts : AssignOptions) :
    List (Option ParseResult) → Nat → Nat → BatchOutcome
  | [], _, failures => .finished failures (if 0 < failures then 1 else 0)
  | none :: rest, attempted, failures => runBatchGo opts rest (attempted + 1) (failures + 1)
  | some pr :: rest, attempted, failures =>
    if pr.blocks.length = 0 then .exitedEarly 1 (attempted + 1)
    else
      let _output := serializeSrt (assignSlots pr.blocks opts)
      runBatchGo opts rest (attempted + 1) failures

/-- The batch loop of `main`, started with no files attempted and no
failures. -/
def runBatch (opts : AssignOptions) (files : List (Option ParseResult)) : BatchOutcome :=
  runBatchGo opts files 0 0

/-- The no-collision property of a pair of resolved blocks: if the two
time ranges overlap and neither block kept an existing tag, their
assigned tags differ, except that both may carry the overflow fallback
tag (the last palette entry). -/
def tagsOk (a b : SubtitleBlock) : Prop :=
  a.startMs < b.endMs → b.startMs < a.endMs →
    a.keepExisting = false → b.keepExisting = false →
    (a.assignedTag ≠ b.assignedTag ∨
      (a.assignedTag = some "\\an6" ∧ b.assignedTag = some "\\an6"))

/-- The comparator of `assignSlots`, lifted to index-block pairs. -/
def workingLT (p q : Nat × SubtitleBlock) : Bool := blockLT p.2 q.2

/-- The working list of `assignSlots`: the index-paired blocks in sweep
order. -/
def workingOf (blocks : List SubtitleBlock) : List (Nat × SubtitleBlock) :=
  stableSort workingLT blocks.enum

/-! ### Concrete fixtures -/

/-- A block as produced by the parser: only order, times and text. -/
def mkBlock (o s e : Nat) (ls : List String) : SubtitleBlock :=
  { originalOrder := o, startMs := s, endMs := e, lines := ls }

/-- Six blocks all spanning the same window, more than the palette can
serve. -/
def sixOverlapping : List SubtitleBlock :=
  [mkBlock 0 0 10000 ["L1"], mkBlock 1 0 10000 ["L2"], mkBlock 2 0 10000 ["L3"],
    mkBlock 3 0 10000 ["L4"], mkBlock 4 0 10000 ["L5"], mkBlock 5 0 10000 ["L6"]]

/-- Default option set of the CLI: no clean, no ignore-existing,
omit-default on. -/
def plainOpts : AssignOptions :=
  { clean := false, ignoreExisting := false, omitDefault := true }

/-- Two overlapping blocks, the worked example of the spec. -/
def pairBlocks : List SubtitleBlock :=
  [mkBlock 0 0 4000 ["Hi"], mkBlock 1 2000 6000 ["Bye"]]

/-- Fallback block for safe list indexing in closed statements. -/
def fbBlock : SubtitleBlock := mkBlock 0 0 0 []

/-- Blocks with zero duration and with end before start. -/
def weirdBlocks : List SubtitleBlock :=
  [mkBlock 0 5000 5000 ["A"], mkBlock 1 4000 1000 ["B"], mkBlock 2 0 10000 ["C"]]

/-- Options with ignore-existing enabled. -/
def igOpts : AssignOptions := { clean := false, ignoreExisting := true, omitDefault := true }

/-- A block carrying a leading position tag. -/
def reuseBlock : SubtitleBlock := mkBlock 0 0 4000 ["\x7b\\an8\x7dHi"]

/-- The one-cue file used as the healthy second batch member. -/
def goodSrt : String := "1\n00:00:00,000 --> 00:00:01,000\nHi"

/-- Already-tagged, pairwise non-overlapping blocks. -/
def taggedBlocks : List SubtitleBlock :=
  [mkBlock 0 0 1000 ["\x7b\\an8\x7dHi"], mkBlock 1 2000 3000 ["\x7b\\an5\x7dBye"]]

/-! ### C8 -/

/-- C8: a rich-format timestamp with one fractional digit `d` is worth
`d * 100` milliseconds beyond the whole seconds (digit in the tens of
centiseconds), while a two-digit fraction `cc` is worth `cc * 10`
milliseconds; in particular 0:00:01.5 is 1500 ms and 0:00:01.05 is
1050 ms. -/
theorem parseAssTimestamp_centiseconds :
    (∀ d, d < 10 →
      parseAssTimestampToMs
          (String.mk ['0', ':', '0', '0', ':', '0', '1', '.', Char.ofNat (48 + d)]) =
        some (1000 + d * 100)) ∧
    (∀ c, c < 100 →
      parseAssTimestampToMs
          (String.mk ['0', ':', '0', '0', ':', '0', '1', '.',
            Char.ofNat (48 + c / 10), Char.ofNat (48 + c % 10)]) =
        some (1000 + c * 10)) ∧
    parseAssTimestampToMs "0:00:01.5" = some 1500 ∧
    parseAssTimestampToMs "0:00:01.05" = some 1050 := by
  decide

/-- C8 witness: the quantified parts of the statement applied at the
concrete fraction digits 5 and 05. -/
theorem parseAssTimestamp_centiseconds_witness :
    parseAssTimestampToMs
        (String.mk ['0', ':', '0', '0', ':', '0', '1', '.', Char.ofNat (48 + 5)]) =
      some (1000 + 5 * 100) ∧
    parseAssTimestampToMs
        (String.mk ['0', ':', '0', '0', ':', '0', '1', '.',
          Char.ofNat (48 + 5 / 10), Char.ofNat (48 + 5 % 10)]) =
      some (1000 + 5 * 10) :=
  ⟨parseAssTimestamp_centiseconds.1 5 (by decide),
    parseAssTimestamp_centiseconds.2.1 5 (by decide)⟩

/-! ### C9 -/

/-- C9: in the dialogue color resolution, an explicit inline override is
returned verbatim whatever its value (a pure-white override included)
and whatever the white policy; with no override, a style-default color
that lowercases to pure white is dropped exactly when `omitWhiteColor`
is set (keep-white off), and the style-default color is kept whenever
`omitWhiteColor` is off. -/
theorem resolveColor_white_policy (sc : Option String) (c : String) (omitW : Bool) :
    resolveDialogueColor (some c) sc omitW = some c ∧
    (assColorToHex sc = some "#ffffff" →
      resolveDialogueColor none sc true = none) ∧
    ((assColorToHex sc).map toLowerAscii ≠ some "#ffffff" →
      resolveDialogueColor none sc true = assColorToHex sc) ∧
    resolveDialogueColor none sc false = assColorToHex sc := by
  refine ⟨?_, ?_, ?_, ?_⟩
  · simp [resolveDialogueColor, Option.orElse]
  · intro hwhite
    have hlow : (assColorToHex sc).map toLowerAscii = some "#ffffff" := by
      rw [hwhite]; decide
    simp [resolveDialogueColor, Option.orElse, hlow]
  · intro hwhite
    simp [resolveDialogueColor, Option.orElse, hwhite]
  · simp [resolveDialogueColor, Option.orElse]

/-- C9 witness: the policy applied to a pure-white style default and a
pure-white inline override. -/
theorem resolveColor_white_policy_witness :
    resolveDialogueColor (some "#ffffff") (some "&HFFFFFF&") true = some "#ffffff" ∧
    resolveDialogueColor none (some "&HFFFFFF&") true = none ∧
    resolveDialogueColor none (some "&HFFFFFF&") false =
      assColorToHex (some "&HFFFFFF&") :=
  ⟨(resolveColor_white_policy (some "&HFFFFFF&") "#ffffff" true).1,
    (resolveColor_white_policy (some "&HFFFFFF&") "#ffffff" true).2.1 (by decide),
    (resolveColor_white_policy (some "&HFFFFFF&") "#ffffff" true).2.2.2⟩

/-! ### C10 -/

/-- C10: `assColorToHex` left-pads short values with zeros before the
BBGGRR-to-RRGGBB swap, so the inline override payload `&HFF&` becomes
`#ff0000`; and whenever any of the last six characters after padding is
not a hexadecimal digit, the conversion yields no color instead of
failing. -/
theorem assColorToHex_pad_and_reject (s : String) (c : Char)
    (hc : c ∈ lastSix (padStart6 (normalizeAssColor s)))
    (hbad : isHexDigitChar c = false) :
    assColorToHex (some s) = none ∧
    assColorToHex (some "&HFF&") = some "#ff0000" := by
  refine ⟨?_, by decide⟩
  unfold assColorToHex
  by_cases hemp : (normalizeAssColor s).isEmpty = true
  · simp [hemp]
  · simp only [hemp, Bool.false_eq_true, if_false]
    set six := lastSix (padStart6 (normalizeAssColor s)) with hsix
    have hdecomp : six = six.take 2 ++ ((six.drop 2).take 2 ++ six.drop 4) := by
      have h4 : six.drop 4 = (six.drop 2).drop 2 := by
        rw [List.drop_drop]
      rw [h4, List.take_append_drop, List.take_append_drop]
    rw [if_neg]
    intro hall
    rw [hdecomp] at hc
    simp only [Bool.and_eq_true] at hall
    rcases List.mem_append.mp hc with hin | hin2
    · have := (List.all_eq_true.mp hall.2) c hin
      rw [hbad] at this
      exact Bool.false_ne_true this
    · rcases List.mem_append.mp hin2 with hin | hin
      · have := (List.all_eq_true.mp hall.1.2) c hin
        rw [hbad] at this
        exact Bool.false_ne_true this
      · have := (List.all_eq_true.mp hall.1.1) c hin
        rw [hbad] at this
        exact Bool.false_ne_true this

/-- C10 witness: the rejection applied to a value whose padded tail
contains a non-hex character. -/
theorem assColorToHex_pad_and_reject_witness :
    assColorToHex (some "xyz") = none ∧
    assColorToHex (some "&HFF&") = some "#ff0000" :=
  assColorToHex_pad_and_reject "xyz" 'x' (by decide) (by decide)

/-! ### Lemmas about the stable sort -/

theorem stableInsert_perm {α} (lt : α → α → Bool) (x : α) :
    ∀ l : List α, List.Perm (stableInsert lt x l) (x :: l) := by
  intro l
  induction l with
  | nil => simp [stableInsert]
  | cons y rest ih =>
    simp only [stableInsert]
    by_cases h : lt y x = true
    · simp only [h, if_true]
      exact (List.Perm.cons y ih).trans (List.Perm.swap x y rest)
    · simp only [Bool.not_eq_true] at h
      simp [h]

theorem stableSort_perm {α} (lt : α → α → Bool) :
    ∀ l : List α, List.Perm (stableSort lt l) l := by
  intro l
  induction l with
  | nil => simp [stableSort]
  | cons x rest ih =>
    exact (stableInsert_perm lt x (stableSort lt rest)).trans (List.Perm.cons x ih)

theorem pairwise_stableInsert {α} {lt : α → α → Bool} {R : α → α → Prop}
    (h1 : ∀ a b, lt a b = true → R a b) (h2 : ∀ a b, lt b a = false → R a b)
    (htrans : ∀ a b c, R a b → R b c → R a c) (x : α) :
    ∀ l : List α, List.Pairwise R l → List.Pairwise R (stableInsert lt x l) := by
  intro l
  induction l with
  | nil => intro _; simp [stableInsert]
  | cons y rest ih =>
    intro hp
    rcases List.pairwise_cons.mp hp with ⟨hy, hrest⟩
    simp only [stableInsert]
    by_cases h : lt y x = true
    · simp only [h, if_true]
      refine List.pairwise_cons.mpr ⟨?_, ih hrest⟩
      intro z hz
      rcases List.mem_cons.mp ((stableInsert_perm lt x rest).mem_iff.mp hz) with hz1 | hz2
      · exact hz1 ▸ h1 y x h
      · exact hy z hz2
    · simp only [Bool.not_eq_true] at h
      simp only [h, Bool.false_eq_true, if_false]
      refine List.pairwise_cons.mpr ⟨?_, hp⟩
      intro z hz
      rcases List.mem_cons.mp hz with hz1 | hz2
      · exact hz1 ▸ h2 x y h
      · exact htrans x y z (h2 x y h) (hy z hz2)

theorem pairwise_stableSort {α} {lt : α → α → Bool} {R : α → α → Prop}
    (h1 : ∀ a b, lt a b = true → R a b) (h2 : ∀ a b, lt b a = false → R a b)
    (htrans : ∀ a b c, R a b → R b c → R a c) :
    ∀ l : List α, List.Pairwise R (stableSort lt l) := by
  intro l
  induction l with
  | nil => simp [stableSort]
  | cons x rest ih => exact pairwise_stableInsert h1 h2 htrans x _ ih

/-! ### Lemmas about one sweep step -/

theorem chooseTag_spec (used : List String) :
    chooseTag used ∉ used ∨ chooseTag used = "\\an6" := by
  unfold chooseTag
  cases h : POSITION_TAGS.find? (fun t => !(used.contains t)) with
  | none => exact Or.inr rfl
  | some t =>
    refine Or.inl ?_
    have := List.find?_some h
    simpa using this

theorem processBlock_fst_startMs (opts : AssignOptions) (b : SubtitleBlock)
    (active : List (Nat × String)) :
    (processBlock opts b active).1.startMs = b.startMs := by
  unfold processBlock
  cases h : extractLeadingTag (b.lines.headD "") <;>
    by_cases hcond : (!opts.clean && opts.ignoreExisting) = true <;> simp [hcond]

theorem processBlock_fst_endMs (opts : AssignOptions) (b : SubtitleBlock)
    (active : List (Nat × String)) :
    (processBlock opts b active).1.endMs = b.endMs := by
  unfold processBlock
  cases h : extractLeadingTag (b.lines.headD "") <;>
    by_cases hcond : (!opts.clean && opts.ignoreExisting) = true <;> simp [hcond]

theorem processBlock_assignedTag_isSome (opts : AssignOptions) (b : SubtitleBlock)
    (active : List (Nat × String)) :
    ((processBlock opts b active).1.assignedTag).isSome = true := by
  unfold processBlock
  cases h : extractLeadingTag (b.lines.headD "") <;>
    by_cases hcond : (!opts.clean && opts.ignoreExisting) = true <;> simp [hcond]

theorem processBlock_active_mem (opts : AssignOptions) (b : SubtitleBlock)
    (active : List (Nat × String)) (e : Nat) (t : String)
    (hmem : (e, t) ∈ active) (hlt : b.startMs < e) :
    (e, t) ∈ (processBlock opts b active).2 := by
  have hev : (e, t) ∈ evictActive b.startMs active := by
    simp only [evictActive, List.mem_filter]
    exact ⟨hmem, by simpa using hlt⟩
  unfold processBlock
  cases h : extractLeadingTag (b.lines.headD "") <;>
    by_cases hcond : (!opts.clean && opts.ignoreExisting) = true <;>
      simp [hcond, List.mem_append, hev]

theorem processBlock_not_keep (opts : AssignOptions) (b : SubtitleBlock)
    (active : List (Nat × String))
    (h : (processBlock opts b active).1.keepExisting = false) :
    (processBlock opts b active).1.assignedTag =
      some (chooseTag ((evictActive b.startMs active).map Prod.snd)) ∧
    (processBlock opts b active).2 =
      evictActive b.startMs active ++
        [(b.endMs, chooseTag ((evictActive b.startMs active).map Prod.snd))] := by
  unfold processBlock at *
  cases hx : extractLeadingTag (b.lines.headD "") <;> rw [hx] at h <;>
    by_cases hcond : (!opts.clean && opts.ignoreExisting) = true <;>
      simp [hcond] at h ⊢

theorem processBlock_reuse (opts : AssignOptions) (b : SubtitleBlock)
    (active : List (Nat × String)) (t : String)
    (hc : opts.clean = false) (hi : opts.ignoreExisting = true)
    (ht : extractLeadingTag (b.lines.headD "") = some t) :
    processBlock opts b active =
      ({ b with existingTag := some t, assignedTag := some t, keepExisting := true },
        evictActive b.startMs active ++ [(b.endMs, t)]) := by
  unfold processBlock
  rw [ht]
  simp [hc, hi]

/-! ### Lemmas about the sweep -/

theorem sweep_fst (opts : AssignOptions) :
    ∀ (ws : List (Nat × SubtitleBlock)) (active : List (Nat × String)),
      (sweep opts ws active).map Prod.fst = ws.map Prod.fst := by
  intro ws
  induction ws with
  | nil => intro active; simp [sweep]
  | cons p rest ih =>
    intro active
    obtain ⟨i, b⟩ := p
    simp [sweep, ih]

theorem sweep_mem_src (opts : AssignOptions) :
    ∀ (ws : List (Nat × SubtitleBlock)) (active : List (Nat × String))
      (p : Nat × SubtitleBlock), p ∈ sweep opts ws active →
      ∃ q ∈ ws, ∃ act, p = (q.1, (processBlock opts q.2 act).1) := by
  intro ws
  induction ws with
  | nil => intro active p hp; simp [sweep] at hp
  | cons q rest ih =>
    intro active p hp
    obtain ⟨i, b⟩ := q
    simp only [sweep, List.mem_cons] at hp
    rcases hp with hp | hp
    · exact ⟨(i, b), List.mem_cons_self _ _, active, hp⟩
    · rcases ih _ p hp with ⟨q', hq', act, heq⟩
      exact ⟨q', List.mem_cons_of_mem _ hq', act, heq⟩

theorem sweep_avoid (opts : AssignOptions) :
    ∀ (ws : List (Nat × SubtitleBlock)) (active : List (Nat × String))
      (e : Nat) (t : String),
      List.Pairwise (fun p q : Nat × SubtitleBlock => p.2.startMs ≤ q.2.startMs) ws →
      (e, t) ∈ active →
      ∀ p ∈ sweep opts ws active, p.2.startMs < e → p.2.keepExisting = false →
        (p.2.assignedTag ≠ some t ∨ p.2.assignedTag = some "\\an6") := by
  intro ws
  induction ws with
  | nil => intro active e t _ _ p hp; simp [sweep] at hp
  | cons q rest ih =>
    intro active e t hsort hmem p hp hlt hkeep
    obtain ⟨i, b⟩ := q
    rcases List.pairwise_cons.mp hsort with ⟨hhead, htail⟩
    simp only [sweep, List.mem_cons] at hp
    rcases hp with hp | hp
    · -- p is the processed head block
      have hp2 : p.2 = (processBlock opts b active).1 := by rw [hp]
      rw [hp2] at hlt hkeep ⊢
      rcases processBlock_not_keep opts b active hkeep with ⟨hassig, _⟩
      have hstart : b.startMs < e := by
        have hs := processBlock_fst_startMs opts b active
        omega
      have htused : t ∈ (evictActive b.startMs active).map Prod.snd := by
        refine List.mem_map.mpr ⟨(e, t), ?_, rfl⟩
        simp only [evictActive, List.mem_filter]
        exact ⟨hmem, by simpa using hstart⟩
      rcases chooseTag_spec ((evictActive b.startMs active).map Prod.snd) with hch | hch
      · refine Or.inl ?_
        rw [hassig]
        intro hcontra
        have ht2 := Option.some.inj hcontra
        apply hch
        rw [ht2]
        exact htused
      · refine Or.inr ?_
        rw [hassig, hch]
    · -- p comes from the processed tail
      have hstartb : b.startMs < e := by
        rcases sweep_mem_src opts rest _ p hp with ⟨q', hq', act, heq⟩
        have h1 : b.startMs ≤ q'.2.startMs := hhead q' hq'
        have h2 : p.2.startMs = q'.2.startMs := by
          rw [heq]; exact processBlock_fst_startMs opts q'.2 act
        omega
      exact ih _ e t htail
        (processBlock_active_mem opts b active e t hmem hstartb) p hp hlt hkeep

theorem tagsOk_symm {a b : SubtitleBlock} (h : tagsOk a b) : tagsOk b a := by
  intro h1 h2 h3 h4
  rcases h h2 h1 h4 h3 with hne | hboth
  · exact Or.inl (Ne.symm hne)
  · exact Or.inr ⟨hboth.2, hboth.1⟩

theorem sweep_pairwise (opts : AssignOptions) :
    ∀ (ws : List (Nat × SubtitleBlock)) (active : List (Nat × String)),
      List.Pairwise (fun p q : Nat × SubtitleBlock => p.2.startMs ≤ q.2.startMs) ws →
      List.Pairwise (fun p q : Nat × SubtitleBlock => tagsOk p.2 q.2)
        (sweep opts ws active) := by
  intro ws
  induction ws with
  | nil => intro active _; simp [sweep]
  | cons w rest ih =>
    intro active hsort
    obtain ⟨i, b⟩ := w
    rcases List.pairwise_cons.mp hsort with ⟨hhead, htail⟩
    simp only [sweep]
    refine List.pairwise_cons.mpr ⟨?_, ih _ htail⟩
    intro q hq
    show tagsOk (processBlock opts b active).1 q.2
    intro hov1 hov2 hk1 hk2
    rcases processBlock_not_keep opts b active hk1 with ⟨hassig, hact⟩
    have hpush : (b.endMs, chooseTag ((evictActive b.startMs active).map Prod.snd)) ∈
        (processBlock opts b active).2 := by
      rw [hact]
      simp
    have hqs : q.2.startMs < b.endMs := by
      have he := processBlock_fst_endMs opts b active
      omega
    have havoid := sweep_avoid opts rest (processBlock opts b active).2 b.endMs
      (chooseTag ((evictActive b.startMs active).map Prod.snd)) htail hpush q hq hqs hk2
    rcases havoid with hne | han6
    · by_cases h6 : chooseTag ((evictActive b.startMs active).map Prod.snd) = "\\an6"
      · rcases Decidable.em
          (q.2.assignedTag = some "\\an6") with hq6 | hq6
        · exact Or.inr ⟨by rw [hassig, h6], by rw [hq6]⟩
        · refine Or.inl ?_
          rw [hassig]
          intro hcontra
          exact hne (Eq.symm hcontra)
      · refine Or.inl ?_
        rw [hassig]
        intro hcontra
        exact hne (Eq.symm hcontra)
    · by_cases h6 : chooseTag ((evictActive b.startMs active).map Prod.snd) = "\\an6"
      · exact Or.inr ⟨by rw [hassig, h6], han6⟩
      · refine Or.inl ?_
        rw [hassig, han6]
        intro hcontra
        exact h6 (Option.some.inj hcontra)

/-! ### Lookup and write-back lemmas -/

theorem lookupIdx_mem {i : Nat} {l : List (Nat × SubtitleBlock)} {v : SubtitleBlock}
    (h : lookupIdx i l = some v) : (i, v) ∈ l := by
  induction l with
  | nil => simp [lookupIdx] at h
  | cons p rest ih =>
    obtain ⟨j, b⟩ := p
    by_cases hj : j = i
    · subst hj
      simp [lookupIdx] at h
      subst h
      exact List.mem_cons_self _ _
    · simp only [lookupIdx, if_neg hj] at h
      exact List.mem_cons_of_mem _ (ih h)

theorem lookupIdx_isSome {i : Nat} {l : List (Nat × SubtitleBlock)}
    (h : i ∈ l.map Prod.fst) : (lookupIdx i l).isSome = true := by
  induction l with
  | nil => simp at h
  | cons p rest ih =>
    obtain ⟨j, b⟩ := p
    by_cases hj : j = i
    · simp [lookupIdx, hj]
    · simp only [List.map_cons, List.mem_cons] at h
      rcases h with h | h
      · exact absurd (Eq.symm h) hj
      · simp only [lookupIdx, if_neg hj]
        exact ih h

theorem applyTag_fields (omitDefault : Bool) (b : SubtitleBlock) :
    (applyTag omitDefault b).startMs = b.startMs ∧
    (applyTag omitDefault b).endMs = b.endMs ∧
    (applyTag omitDefault b).keepExisting = b.keepExisting ∧
    (applyTag omitDefault b).assignedTag = b.assignedTag := by
  unfold applyTag
  by_cases hk : b.keepExisting = true
  · simp [hk]
  · cases hl : b.lines with
    | nil => simp [hk, hl]
    | cons f rest =>
      by_cases hd : (omitDefault && b.assignedTag.getD DEFAULT_TAG == DEFAULT_TAG) = true <;>
        by_cases hbr : (match f.data with | '{' :: _ => true | _ => false) = true <;>
          simp [hk, hl, hd, hbr]

theorem assignSlots_eq (blocks : List SubtitleBlock) (opts : AssignOptions) :
    assignSlots blocks opts = blocks.enum.map (fun p =>
      applyTag opts.omitDefault
        ((lookupIdx p.1 (sweep opts (workingOf blocks) [])).getD p.2)) := by
  rfl

theorem working_pairwise (blocks : List SubtitleBlock) :
    List.Pairwise (fun p q : Nat × SubtitleBlock => p.2.startMs ≤ q.2.startMs)
      (workingOf blocks) := by
  refine pairwise_stableSort ?_ ?_ ?_ blocks.enum
  · intro a b h
    simp only [workingLT, blockLT, Bool.or_eq_true, Bool.and_eq_true,
      decide_eq_true_eq, beq_iff_eq] at h
    omega
  · intro a b h
    have h2 : ¬(workingLT b a = true) := by simp [h]
    simp only [workingLT, blockLT, Bool.or_eq_true, Bool.and_eq_true,
      decide_eq_true_eq, beq_iff_eq] at h2
    push_neg at h2
    omega
  · intro a b c hab hbc
    omega

theorem mem_assignSlots_entry (blocks : List SubtitleBlock) (opts : AssignOptions)
    (a : SubtitleBlock) (ha : a ∈ assignSlots blocks opts) :
    ∃ iv : Nat × SubtitleBlock,
      iv ∈ sweep opts (workingOf blocks) [] ∧
      a = applyTag opts.omitDefault iv.2 := by
  rw [assignSlots_eq] at ha
  rcases List.mem_map.mp ha with ⟨p, hp, heq⟩
  have hkey : p.1 ∈ (sweep opts (workingOf blocks) []).map Prod.fst := by
    rw [sweep_fst]
    exact ((stableSort_perm workingLT blocks.enum).map Prod.fst).mem_iff.mpr
      (List.mem_map.mpr ⟨p, hp, rfl⟩)
  obtain ⟨v, hv⟩ := Option.isSome_iff_exists.mp (lookupIdx_isSome hkey)
  refine ⟨(p.1, v), lookupIdx_mem hv, ?_⟩
  rw [← heq, hv]
  rfl

/-! ### C1 -/

/-- C1 counterexample: with six blocks all spanning the window 0 to
10000 ms, the resolver assigns the fallback tag to both the fifth and
the sixth block in sweep order.  These two output blocks overlap, neither
kept an existing tag (no tag was reused via ignore-existing), yet their
assigned tags are equal, so overlapping non-reused blocks do not always
receive different tags. -/
theorem assignSlots_collision_cex :
    (assignSlots sixOverlapping plainOpts).getD 4 fbBlock ∈
      assignSlots sixOverlapping plainOpts ∧
    (assignSlots sixOverlapping plainOpts).getD 5 fbBlock ∈
      assignSlots sixOverlapping plainOpts ∧
    (assignSlots sixOverlapping plainOpts).getD 4 fbBlock ≠
      (assignSlots sixOverlapping plainOpts).getD 5 fbBlock ∧
    ((assignSlots sixOverlapping plainOpts).getD 4 fbBlock).startMs <
      ((assignSlots sixOverlapping plainOpts).getD 5 fbBlock).endMs ∧
    ((assignSlots sixOverlapping plainOpts).getD 5 fbBlock).startMs <
      ((assignSlots sixOverlapping plainOpts).getD 4 fbBlock).endMs ∧
    ((assignSlots sixOverlapping plainOpts).getD 4 fbBlock).keepExisting = false ∧
    ((assignSlots sixOverlapping plainOpts).getD 5 fbBlock).keepExisting = false ∧
    ((assignSlots sixOverlapping plainOpts).getD 4 fbBlock).assignedTag =
      ((assignSlots sixOverlapping plainOpts).getD 5 fbBlock).assignedTag := by
  decide

/-- C1 (amended): any two distinct blocks of the resolver output whose
time ranges overlap and neither of which kept an existing tag receive
different assigned tags, unless both were assigned the last palette
entry (the fallback used when all five palette tags are busy). -/
theorem assignSlots_overlap_distinct_tags (blocks : List SubtitleBlock)
    (opts : AssignOptions) (a b : SubtitleBlock)
    (ha : a ∈ assignSlots blocks opts) (hb : b ∈ assignSlots blocks opts)
    (hne : a ≠ b) (hov1 : a.startMs < b.endMs) (hov2 : b.startMs < a.endMs)
    (hk1 : a.keepExisting = false) (hk2 : b.keepExisting = false) :
    a.assignedTag ≠ b.assignedTag ∨
      (a.assignedTag = some "\\an6" ∧ b.assignedTag = some "\\an6") := by
  rcases mem_assignSlots_entry blocks opts a ha with ⟨pa, hpa, haeq⟩
  rcases mem_assignSlots_entry blocks opts b hb with ⟨pb, hpb, hbeq⟩
  obtain ⟨hsa, hea, hka, hta⟩ := applyTag_fields opts.omitDefault pa.2
  obtain ⟨hsb, heb, hkb, htb⟩ := applyTag_fields opts.omitDefault pb.2
  have eas : a.startMs = pa.2.startMs := by rw [haeq, hsa]
  have eae : a.endMs = pa.2.endMs := by rw [haeq, hea]
  have eak : a.keepExisting = pa.2.keepExisting := by rw [haeq, hka]
  have eat : a.assignedTag = pa.2.assignedTag := by rw [haeq, hta]
  have ebs : b.startMs = pb.2.startMs := by rw [hbeq, hsb]
  have ebe : b.endMs = pb.2.endMs := by rw [hbeq, heb]
  have ebk : b.keepExisting = pb.2.keepExisting := by rw [hbeq, hkb]
  have ebt : b.assignedTag = pb.2.assignedTag := by rw [hbeq, htb]
  have hpw := sweep_pairwise opts (workingOf blocks) [] (working_pairwise blocks)
  have hsymm : Symmetric (fun p q : Nat × SubtitleBlock => tagsOk p.2 q.2) :=
    fun x y h => tagsOk_symm h
  have hnep : pa ≠ pb := by
    intro hcontra
    apply hne
    rw [haeq, hbeq, hcontra]
  have hok := hpw.forall hsymm hpa hpb hnep
    (by rw [← eas, ← ebe]; exact hov1) (by rw [← ebs, ← eae]; exact hov2)
    (by rw [← eak]; exact hk1) (by rw [← ebk]; exact hk2)
  rw [eat, ebt]
  exact hok

/-- C1 witness: on the spec's worked pair of overlapping blocks the
amended statement applies and its hypotheses are satisfiable. -/
theorem assignSlots_overlap_distinct_tags_witness :
    ((assignSlots pairBlocks plainOpts).getD 0 fbBlock).assignedTag ≠
      ((assignSlots pairBlocks plainOpts).getD 1 fbBlock).assignedTag ∨
    (((assignSlots pairBlocks plainOpts).getD 0 fbBlock).assignedTag = some "\\an6" ∧
      ((assignSlots pairBlocks plainOpts).getD 1 fbBlock).assignedTag = some "\\an6") :=
  assignSlots_overlap_distinct_tags pairBlocks plainOpts
    ((assignSlots pairBlocks plainOpts).getD 0 fbBlock)
    ((assignSlots pairBlocks plainOpts).getD 1 fbBlock)
    (by decide) (by decide) (by decide) (by decide) (by decide) (by decide) (by decide)

/-! ### C4 -/

/-- C4: among six blocks all spanning 0 to 10000 ms, the first five (in
sweep order) receive the five distinct palette tags in priority order and
the sixth, finding every palette tag in use, falls back to the last
palette entry; the resolution never fails. -/
theorem assignSlots_six_overlapping_fallback :
    (assignSlots sixOverlapping plainOpts).map (fun b => b.assignedTag) =
      [some "\\an2", some "\\an8", some "\\an5", some "\\an4",
        some "\\an6", some "\\an6"] ∧
    ((assignSlots sixOverlapping plainOpts).map (fun b => b.assignedTag)).getD 5 none =
      some (POSITION_TAGS.getLastD "") := by
  decide

/-! ### C7 -/

/-- C7: the resolver is total: on every block list (zero- and
negative-duration blocks included) and every options record it returns a
list of the same length in which every block has received an assigned
tag. -/
theorem assignSlots_total (blocks : List SubtitleBlock) (opts : AssignOptions) :
    (assignSlots blocks opts).length = blocks.length ∧
    ∀ b ∈ assignSlots blocks opts, (b.assignedTag).isSome = true := by
  constructor
  · rw [assignSlots_eq]
    simp
  · intro b hb
    rcases mem_assignSlots_entry blocks opts b hb with ⟨iv, hiv, heq⟩
    rcases sweep_mem_src opts _ _ iv hiv with ⟨q, hq, act, hivq⟩
    obtain ⟨_, _, _, hta⟩ := applyTag_fields opts.omitDefault iv.2
    rw [heq, hta, hivq]
    exact processBlock_assignedTag_isSome opts q.2 act

/-- C7 witness: the totality statement instantiated on a list containing
a zero-duration and a negative-duration block. -/
theorem assignSlots_total_witness :
    (assignSlots weirdBlocks plainOpts).length = weirdBlocks.length ∧
    (((assignSlots weirdBlocks plainOpts).getD 1 fbBlock).assignedTag).isSome = true :=
  ⟨(assignSlots_total weirdBlocks plainOpts).1,
    (assignSlots_total weirdBlocks plainOpts).2 _ (by decide)⟩

/-! ### C5 -/

/-- C5: with clean off and ignore-existing on, a block whose first text
line starts with a tag marker is resolved by reusing that tag verbatim:
`assignedTag` is set to it, `keepExisting` is set, and the pair
`(endMs, tag)` is pushed onto the active list.  Moreover the palette scan
never yields a tag that is in the used set (so a later overlapping block
served from the scan avoids this tag), and any later block of the sweep
that overlaps this one and did not itself reuse a tag is assigned either
a different tag or the overflow fallback entry. -/
theorem processBlock_reuse_and_reserve (opts : AssignOptions) (b : SubtitleBlock)
    (active : List (Nat × String)) (t : String)
    (hc : opts.clean = false) (hi : opts.ignoreExisting = true)
    (ht : extractLeadingTag (b.lines.headD "") = some t) :
    processBlock opts b active =
      ({ b with existingTag := some t, assignedTag := some t, keepExisting := true },
        evictActive b.startMs active ++ [(b.endMs, t)]) ∧
    (∀ (used : List String) (c : String), t ∈ used →
      POSITION_TAGS.find? (fun tag => !(used.contains tag)) = some c → c ≠ t) ∧
    (∀ rest q,
      List.Pairwise (fun p q' : Nat × SubtitleBlock => p.2.startMs ≤ q'.2.startMs) rest →
      q ∈ sweep opts rest (evictActive b.startMs active ++ [(b.endMs, t)]) →
      q.2.startMs < b.endMs → q.2.keepExisting = false →
      (q.2.assignedTag ≠ some t ∨ q.2.assignedTag = some "\\an6")) := by
  refine ⟨processBlock_reuse opts b active t hc hi ht, ?_, ?_⟩
  · intro used c hused hfind
    have hpred := List.find?_some hfind
    simp only [Bool.not_eq_true'] at hpred
    intro hct
    rw [hct] at hpred
    simp at hpred
    exact hpred hused
  · intro rest q hsort hq hqs hqk
    exact sweep_avoid opts rest _ b.endMs t hsort
      (by simp [List.mem_append]) q hq hqs hqk

/-- C5 witness: the reuse behaviour on a concrete tagged block with an
empty active list, plus the palette scan avoiding the reserved tag. -/
theorem processBlock_reuse_and_reserve_witness :
    (processBlock igOpts reuseBlock []).1.assignedTag = some "\\an8" ∧
    (processBlock igOpts reuseBlock []).1.keepExisting = true ∧
    (processBlock igOpts reuseBlock []).2 = [(4000, "\\an8")] ∧
    "\\an2" ≠ "\\an8" := by
  have h := processBlock_reuse_and_reserve igOpts reuseBlock [] "\\an8"
    rfl rfl (by decide)
  refine ⟨?_, ?_, ?_, ?_⟩
  · rw [h.1]
  · rw [h.1]
  · rw [h.1]; decide
  · exact h.2.1 ["\\an8"] "\\an2" (by decide) (by decide)

/-! ### C6 -/

theorem applyTag_keep {b : SubtitleBlock} (h : b.keepExisting = true)
    (omitDefault : Bool) : applyTag omitDefault b = b := by
  simp [applyTag, h]

theorem assignSlots_entry_of_enum (blocks : List SubtitleBlock) (opts : AssignOptions)
    (p : Nat × SubtitleBlock) (hp : p ∈ blocks.enum) :
    ∃ act, (lookupIdx p.1 (sweep opts (workingOf blocks) [])).getD p.2 =
      (processBlock opts p.2 act).1 := by
  have hkey : p.1 ∈ (sweep opts (workingOf blocks) []).map Prod.fst := by
    rw [sweep_fst]
    exact ((stableSort_perm workingLT blocks.enum).map Prod.fst).mem_iff.mpr
      (List.mem_map.mpr ⟨p, hp, rfl⟩)
  obtain ⟨v, hv⟩ := Option.isSome_iff_exists.mp (lookupIdx_isSome hkey)
  rcases sweep_mem_src opts _ _ _ (lookupIdx_mem hv) with ⟨q, hq, act, heq⟩
  have hq1 : q.1 = p.1 := by
    have := congrArg Prod.fst heq
    simpa using this.symm
  have hv2 : v = (processBlock opts q.2 act).1 := by
    have := congrArg Prod.snd heq
    simpa using this
  have hqenum : q ∈ blocks.enum := (stableSort_perm workingLT blocks.enum).mem_iff.mp hq
  have hq2 : q.2 = p.2 := by
    have e1 : blocks[q.1]? = some q.2 := by
      have := List.mk_mem_enum_iff_getElem?.mp (by simpa using hqenum)
      simpa using this
    have e2 : blocks[p.1]? = some p.2 := by
      have := List.mk_mem_enum_iff_getElem?.mp (by simpa using hp)
      simpa using this
    rw [hq1] at e1
    rw [e1] at e2
    exact Option.some.inj e2
  refine ⟨act, ?_⟩
  rw [hq2] at hv2
  rw [hv]
  simpa using hv2

/-- C6: with ignore-existing on (and clean off), a block list in which
every block's first text line starts with a tag marker and no two blocks
overlap resolves to itself: every block's text lines are unchanged and
every block's assigned tag is exactly the tag already present on its
first line. -/
theorem assignSlots_ignore_existing_id (blocks : List SubtitleBlock)
    (opts : AssignOptions) (hc : opts.clean = false) (hi : opts.ignoreExisting = true)
    (htags : ∀ b ∈ blocks, (extractLeadingTag (b.lines.headD "")).isSome = true)
    (_hnov : List.Pairwise
      (fun x y : SubtitleBlock => x.endMs ≤ y.startMs ∨ y.endMs ≤ x.startMs) blocks) :
    (assignSlots blocks opts).map (fun b => b.lines) = blocks.map (fun b => b.lines) ∧
    ∀ b ∈ assignSlots blocks opts,
      b.assignedTag = extractLeadingTag (b.lines.headD "") := by
  have key : ∀ p ∈ blocks.enum,
      applyTag opts.omitDefault
        ((lookupIdx p.1 (sweep opts (workingOf blocks) [])).getD p.2) =
      { p.2 with
        existingTag := extractLeadingTag (p.2.lines.headD ""),
        assignedTag := extractLeadingTag (p.2.lines.headD ""),
        keepExisting := true } := by
    intro p hp
    have hmem : p.2 ∈ blocks := by
      have := List.enum_map_snd blocks
      rw [← this]
      exact List.mem_map.mpr ⟨p, hp, rfl⟩
    obtain ⟨t, ht⟩ := Option.isSome_iff_exists.mp (htags p.2 hmem)
    obtain ⟨act, hval⟩ := assignSlots_entry_of_enum blocks opts p hp
    rw [hval, processBlock_reuse opts p.2 act t hc hi ht]
    rw [applyTag_keep rfl]
    rw [ht]
  constructor
  · rw [assignSlots_eq, List.map_map]
    conv_rhs => rw [← List.enum_map_snd blocks, List.map_map]
    refine List.map_congr_left ?_
    intro p hp
    simp only [Function.comp_apply]
    rw [key p hp]
  · intro b hb
    rw [assignSlots_eq] at hb
    rcases List.mem_map.mp hb with ⟨p, hp, heq⟩
    rw [key p hp] at heq
    rw [← heq]

/-! ### C2 -/

/-- C2: evaluation of the batch loop at the failing input.  A first file
with no valid subtitle blocks makes the loop hit `process.exit(1)`
immediately: the whole process dies with exit code 1 after attempting
only that one file, and the remaining file is never processed.  By
contrast a caught per-file failure (a file whose read throws) is
collected: the loop continues, processes the remaining file, and only
the final exit status reports the failure. -/
theorem runBatch_no_blocks_aborts_batch :
    (parseSrt "garbage").blocks.length = 0 ∧
    (parseSrt goodSrt).blocks.length = 1 ∧
    runBatch plainOpts [some (parseSrt "garbage"), some (parseSrt goodSrt)] =
      BatchOutcome.exitedEarly 1 1 ∧
    runBatch plainOpts [none, some (parseSrt goodSrt)] =
      BatchOutcome.finished 1 1 := by
  decide

/-! ### C3 -/

theorem splitNlAux_ne_nil : ∀ (cs : List Char) (sep : Bool), splitNlAux sep cs ≠ [] := by
  intro cs
  induction cs with
  | nil => intro sep; cases sep <;> simp [splitNlAux]
  | cons c rest ih =>
    intro sep
    cases sep <;> simp only [splitNlAux] <;> split
    · simp
    · split <;> simp
    · exact ih true
    · split <;> simp

theorem splitNlAux_false_two_nl (rest : List Char) :
    splitNlAux false ('\n' :: '\n' :: rest) = [] :: splitNlAux true rest := rfl

theorem splitNlAux_true_nl (rest : List Char) :
    splitNlAux true ('\n' :: rest) = splitNlAux true rest := rfl

theorem splitNlAux_false_cons_not_sep (c : Char) (rest : List Char)
    (h : (decide (c = '\n') && rest.head? == some '\n') = false) :
    splitNlAux false (c :: rest) =
      match splitNlAux false rest with
      | [] => [[c]]
      | h :: t => (c :: h) :: t := by
  have e : splitNlAux false (c :: rest) =
      if c = '\n' && rest.head? == some '\n' then [] :: splitNlAux true rest
      else
        match splitNlAux false rest with
        | [] => [[c]]
        | h :: t => (c :: h) :: t := rfl
  rw [e, if_neg]
  simp [h]

theorem splitNlAux_false_cons_ne (c : Char) (rest : List Char) (hc : c ≠ '\n') :
    splitNlAux false (c :: rest) =
      match splitNlAux false rest with
      | [] => [[c]]
      | h :: t => (c :: h) :: t :=
  splitNlAux_false_cons_not_sep c rest (by simp [hc])

theorem splitNlAux_prepend (a : List Char) (s : List Char) (ha : ∀ c ∈ a, c ≠ '\n') :
    ∀ h t, splitNlAux false s = h :: t →
      splitNlAux false (a ++ s) = (a ++ h) :: t := by
  induction a with
  | nil => intro h t hs; simpa using hs
  | cons c a' ih =>
    intro h t hs
    have hc : c ≠ '\n' := ha c (List.mem_cons_self _ _)
    have hrec := ih (fun x hx => ha x (List.mem_cons_of_mem _ hx)) h t hs
    rw [List.cons_append, splitNlAux_false_cons_ne c _ hc, hrec]
    simp

theorem splitNlAux_false_no_nl (b : List Char) (hb : ∀ c ∈ b, c ≠ '\n') :
    splitNlAux false b = [b] := by
  have := splitNlAux_prepend b [] hb [] [] (by simp [splitNlAux])
  simpa using this

theorem splitNlAux_true_drop (j : Nat) (b : List Char) :
    splitNlAux true (List.replicate j '\n' ++ b) = splitNlAux true b := by
  induction j with
  | zero => simp
  | succ n ih =>
    rw [List.replicate_succ, List.cons_append, splitNlAux_true_nl]
    exact ih

theorem splitNlAux_true_eq_false (c : Char) (rest : List Char) (hc : c ≠ '\n') :
    splitNlAux true (c :: rest) = splitNlAux false (c :: rest) := by
  have e : splitNlAux true (c :: rest) =
      if c = '\n' then splitNlAux true rest
      else
        match splitNlAux false rest with
        | [] => [[c]]
        | h :: t => (c :: h) :: t := rfl
  rw [e, if_neg hc, splitNlAux_false_cons_ne c rest hc]

/-- C3 counterexample: a single blank line (two consecutive newline
characters) already separates raw blocks, so two cue chunks separated by
only one blank line land in two distinct raw blocks and parse as two
cues, not one. -/
theorem parseSrt_single_blank_line_splits_cex :
    splitNlRuns ("a\n\nb".data) = ["a".data, "b".data] ∧
    (parseSrt
        "1\n00:00:00,000 --> 00:00:01,000\nHi\n\n2\n00:00:02,000 --> 00:00:03,000\nBye"
      ).blocks.length = 2 ∧
    (parseSrt
        "1\n00:00:00,000 --> 00:00:01,000\nHi\n\n2\n00:00:02,000 --> 00:00:03,000\nBye"
      ).blocks.map (fun b => b.lines) = [["Hi"], ["Bye"]] := by
  decide

/-- C3 (amended): the plain-text parser splits the document on maximal
runs of two or more newline characters, i.e. on one or more blank lines:
chunks around a run of `k ≥ 2` newlines become separate raw blocks, while
a single newline (no blank line) keeps both chunks in the same raw
block. -/
theorem splitNlRuns_newline_runs (a b : List Char) (k : Nat)
    (ha : ∀ c ∈ a, c ≠ '\n') (hb : ∀ c ∈ b, c ≠ '\n') (hbne : b ≠ [])
    (hk : 2 ≤ k) :
    splitNlRuns (a ++ (List.replicate k '\n' ++ b)) = [a, b] ∧
    splitNlRuns (a ++ ('\n' :: b)) = [a ++ '\n' :: b] := by
  obtain ⟨c, b', rfl⟩ : ∃ c b', b = c :: b' := by
    cases b with
    | nil => exact absurd rfl hbne
    | cons c b' => exact ⟨c, b', rfl⟩
  have hcb : c ≠ '\n' := hb c (List.mem_cons_self _ _)
  have hsingle : splitNlAux false (c :: b') = [c :: b'] := splitNlAux_false_no_nl _ hb
  constructor
  · obtain ⟨k2, rfl⟩ : ∃ k2, k = k2 + 2 := ⟨k - 2, by omega⟩
    have hsep : splitNlAux false (List.replicate (k2 + 2) '\n' ++ c :: b') =
        [] :: [c :: b'] := by
      have h1 : List.replicate (k2 + 2) '\n' ++ c :: b' =
          '\n' :: '\n' :: (List.replicate k2 '\n' ++ c :: b') := by
        simp [List.replicate_succ]
      rw [h1, splitNlAux_false_two_nl, splitNlAux_true_drop,
        splitNlAux_true_eq_false c b' hcb, hsingle]
    have := splitNlAux_prepend a _ ha [] [c :: b'] hsep
    simpa [splitNlRuns] using this
  · have hsep : splitNlAux false ('\n' :: (c :: b')) = ['\n' :: c :: b'] := by
      rw [splitNlAux_false_cons_not_sep '\n' (c :: b') (by simp [hcb]), hsingle]
    have := splitNlAux_prepend a _ ha ('\n' :: c :: b') [] hsep
    simpa [splitNlRuns] using this

/-- C3 amended-claim witness: the split behaviour on the concrete chunks
`a` and `b` with a two-newline separator (one blank line) and with a
lone newline. -/
theorem splitNlRuns_newline_runs_witness :
    splitNlRuns ("a".data ++ (List.replicate 2 '\n' ++ "b".data)) = ["a".data, "b".data] ∧
    splitNlRuns ("a".data ++ ('\n' :: "b".data)) = ["a".data ++ '\n' :: "b".data] :=
  splitNlRuns_newline_runs "a".data "b".data 2
    (by decide) (by decide) (by decide) (by decide)

/-- C6 witness: the idempotence statement instantiated on two tagged,
non-overlapping blocks. -/
theorem assignSlots_ignore_existing_id_witness :
    (assignSlots taggedBlocks igOpts).map (fun b => b.lines) =
      taggedBlocks.map (fun b => b.lines) ∧
    ((assignSlots taggedBlocks igOpts).getD 0 fbBlock).assignedTag =
      extractLeadingTag
        (((assignSlots taggedBlocks igOpts).getD 0 fbBlock).lines.headD "") :=
  ⟨(assignSlots_ignore_existing_id taggedBlocks igOpts rfl rfl
      (by decide) (by decide)).1,
    (assignSlots_ignore_existing_id taggedBlocks igOpts rfl rfl
      (by decide) (by decide)).2 _ (by decide)⟩

end SrtFixer
